import Mathlib

/-!
Shallow embedding of the audio event detection pipeline of the Atlas
repository (python_workers/audio_event_detector.py together with
python_workers/common/audio_types.py).  Time stamps, probabilities and
durations are modelled as rationals.  Python float rounding with a digit
count is modelled as exact rounding of rationals with round-half-to-even
tie breaking, which is what the Python round builtin implements.
-/

namespace Atlas

/-- Round-half-to-even of a rational to an integer, as the Python round
builtin does for the integer step of round(x, n). -/
def roundHalfEven (x : ℚ) : ℤ :=
  if x - ⌊x⌋ < 1/2 then ⌊x⌋
  else if 1/2 < x - ⌊x⌋ then ⌊x⌋ + 1
  else if ⌊x⌋ % 2 = 0 then ⌊x⌋ else ⌊x⌋ + 1

/-- Python round(x, ndigits) on rationals. -/
def pyRound (ndigits : ℕ) (x : ℚ) : ℚ :=
  (roundHalfEven (x * 10 ^ ndigits) : ℚ) / 10 ^ ndigits

/-- Sample rate constant from common/audio_types.py. -/
def SAMPLE_RATE : ℤ := 16000

/-- ModelConfig from common/audio_types.py with its default values. -/
structure ModelConfig where
  model_path : Option String := none
  window_size_ms : ℤ := 1000
  hop_size_ms : ℤ := 250
  confidence_threshold : ℚ := 7/10
  min_segment_duration_ms : ℤ := 500
  merge_gap_ms : ℤ := 300

/-- TimestampSegment from common/audio_types.py (unrounded fields). -/
structure TimestampSegment where
  start_seconds : ℚ
  end_seconds : ℚ
  confidence : ℚ
  label : String
deriving DecidableEq

/-- Serialized form produced by TimestampSegment.to_dict. -/
structure SegmentDict where
  start_seconds : ℚ
  end_seconds : ℚ
  confidence : ℚ
  label : String
deriving DecidableEq

/-- TimestampSegment.to_dict: boundaries rounded to 2 decimal places,
confidence rounded to 3 decimal places, label passed through. -/
def TimestampSegment.toDict (s : TimestampSegment) : SegmentDict :=
  { start_seconds := pyRound 2 s.start_seconds
    end_seconds := pyRound 2 s.end_seconds
    confidence := pyRound 3 s.confidence
    label := s.label }

/-- AudioDetectionResult from common/audio_types.py. -/
structure AudioDetectionResult where
  segments : List TimestampSegment
  total_duration_seconds : ℚ
  detected_duration_seconds : ℚ
  model_version : String

/-- Serialized form produced by AudioDetectionResult.to_dict. -/
structure ResultDict where
  segments : List SegmentDict
  total_duration_seconds : ℚ
  detected_duration_seconds : ℚ
  model_version : String
deriving DecidableEq

/-- AudioDetectionResult.to_dict: durations rounded to 2 decimal places,
segments serialized elementwise. -/
def AudioDetectionResult.toDict (r : AudioDetectionResult) : ResultDict :=
  { segments := r.segments.map TimestampSegment.toDict
    total_duration_seconds := pyRound 2 r.total_duration_seconds
    detected_duration_seconds := pyRound 2 r.detected_duration_seconds
    model_version := r.model_version }

/-- Length of the Python expression range(0, stop, step) for a positive
step, zero when stop is not positive. -/
def pyRangeLen (stop step : ℤ) : ℕ :=
  if 0 < step ∧ 0 < stop then ((stop + step - 1).fdiv step).toNat else 0

/-- The Python expression range(0, stop, step) as a list, for positive step. -/
def pyRange (stop step : ℤ) : List ℤ :=
  (List.range (pyRangeLen stop step)).map (fun i => (i : ℤ) * step)

/-- Window start offsets of _run_inference:
range(0, len(audio) - window_samples + 1, hop_samples). -/
def windowStarts (L W H : ℤ) : List ℤ := pyRange (L - W + 1) H

/-- Number of predictions the _run_inference loop actually emits. -/
def numPredictions (L W H : ℤ) : ℕ := (windowStarts L W H).length

/-- Progress denominator of _run_inference:
total_windows = max(1, (len(audio) - window_samples) // hop_samples + 1). -/
def totalWindows (L W H : ℤ) : ℤ := max 1 ((L - W).fdiv H + 1)

/-- Fuel driven batch splitter; the fuel is an upper bound on the list
length, so the unreachable zero fuel branch is never taken below. -/
def toBatchesAux (b : ℕ) : ℕ → List ℤ → List (List ℤ)
  | _, [] => []
  | 0, l => [l]
  | fuel + 1, x :: xs => (x :: xs.take (b - 1)) :: toBatchesAux b fuel (xs.drop (b - 1))

/-- Contiguous batches window_starts[idx : idx + batch_size] taken by the
inference loop of _run_inference. -/
def toBatches (b : ℕ) (l : List ℤ) : List (List ℤ) :=
  toBatchesAux b l.length l

/-- Sliding window inference loop of _run_inference.  The per-window
feature extraction plus the classifier are abstracted as one pure function
f from window start offset to probability, which is the adapter contract
(the batch call returns one probability per element, in input order).
Every batch contributes the pair (start / sample rate, f start) for each
of its windows, in order. -/
def runInference (f : ℤ → ℚ) (L W H : ℤ) (batch_size : ℕ) : List (ℚ × ℚ) :=
  ((toBatches batch_size (windowStarts L W H)).map
    (fun batch => batch.map (fun (s : ℤ) => ((s : ℚ) / (SAMPLE_RATE : ℚ), f s)))).flatten

/-- Open segment state of _postprocess_predictions: start, end and the
confidence accumulator of the currently open segment. -/
structure RawSegment where
  start : ℚ
  endS : ℚ
  confidences : List ℚ
deriving DecidableEq

/-- Duration of a raw segment. -/
def segDur (s : RawSegment) : ℚ := s.endS - s.start

/-- Merge loop of _postprocess_predictions over the remaining positive
windows, given the currently open segment. -/
def mergeLoop (wd gap : ℚ) : RawSegment → List (ℚ × ℚ) → List RawSegment
  | cur, [] => [cur]
  | cur, w :: rest =>
    if w.1 ≤ cur.endS + gap then
      mergeLoop wd gap
        { cur with endS := w.1 + wd, confidences := cur.confidences ++ [w.2] } rest
    else
      cur :: mergeLoop wd gap { start := w.1, endS := w.1 + wd, confidences := [w.2] } rest

/-- Step 2 of _postprocess_predictions: group the positive windows into
merged segments by the single forward pass. -/
def mergeSegments (wd gap : ℚ) : List (ℚ × ℚ) → List RawSegment
  | [] => []
  | w :: rest => mergeLoop wd gap { start := w.1, endS := w.1 + wd, confidences := [w.2] } rest

/-- np.mean of a list of rationals. -/
def listMean (l : List ℚ) : ℚ := l.sum / l.length

/-- TimestampSegment built from a closed raw segment: mean confidence and
the fixed label target_audio, as in _postprocess_predictions step 3. -/
def RawSegment.emit (s : RawSegment) : TimestampSegment :=
  { start_seconds := s.start
    end_seconds := s.endS
    confidence := listMean s.confidences
    label := "target_audio" }

/-- Step 3 of _postprocess_predictions: keep exactly the segments whose
duration is at least min_duration, emitting them in order. -/
def emitSegments (min_duration : ℚ) : List RawSegment → List TimestampSegment
  | [] => []
  | s :: rest =>
    if min_duration ≤ segDur s then s.emit :: emitSegments min_duration rest
    else emitSegments min_duration rest

/-- AudioEventDetector._postprocess_predictions. -/
def postprocessPredictions (predictions : List (ℚ × ℚ)) (config : ModelConfig) :
    List TimestampSegment :=
  let threshold := config.confidence_threshold
  let min_duration := (config.min_segment_duration_ms : ℚ) / 1000
  let merge_gap := (config.merge_gap_ms : ℚ) / 1000
  let window_duration := (config.window_size_ms : ℚ) / 1000
  let positive_windows := predictions.filter (fun w => decide (threshold ≤ w.2))
  if positive_windows = [] then []
  else emitSegments min_duration (mergeSegments window_duration merge_gap positive_windows)

/-- Detected duration computed by process (lines 175 to 178): sum of the
unrounded segment durations. -/
def detectedDuration (segments : List TimestampSegment) : ℚ :=
  segments.foldl (fun acc s => acc + (s.end_seconds - s.start_seconds)) 0

/-- Result assembly of process (lines 175 to 190): build the
AudioDetectionResult and serialize it. -/
def processResult (segments : List TimestampSegment) (total_duration : ℚ) : ResultDict :=
  (AudioDetectionResult.mk segments total_duration (detectedDuration segments) "v1.0.0").toDict

/-- Total unrounded duration of a list of emitted segments. -/
def totalDuration (l : List TimestampSegment) : ℚ :=
  (l.map (fun s => s.end_seconds - s.start_seconds)).sum

/-! Basic unfolding lemmas. -/

lemma foldl_add_map (g : TimestampSegment → ℚ) :
    ∀ (l : List TimestampSegment) (a : ℚ),
      l.foldl (fun acc s => acc + g s) a = a + (l.map g).sum := by
  intro l
  induction l with
  | nil => simp
  | cons s t ih => intro a; simp [ih]; ring

lemma detectedDuration_eq (segments : List TimestampSegment) :
    detectedDuration segments = totalDuration segments := by
  simp [detectedDuration, totalDuration, foldl_add_map]

lemma emitSegments_eq_filter_map (m : ℚ) :
    ∀ l : List RawSegment,
      emitSegments m l = (l.filter (fun s => decide (m ≤ segDur s))).map RawSegment.emit := by
  intro l
  induction l with
  | nil => rfl
  | cons s rest ih =>
    by_cases h : m ≤ segDur s <;> simp [emitSegments, List.filter_cons, h, ih]

lemma postprocess_eq (predictions : List (ℚ × ℚ)) (config : ModelConfig) :
    postprocessPredictions predictions config =
      emitSegments ((config.min_segment_duration_ms : ℚ) / 1000)
        (mergeSegments ((config.window_size_ms : ℚ) / 1000)
          ((config.merge_gap_ms : ℚ) / 1000)
          (predictions.filter (fun w => decide (config.confidence_threshold ≤ w.2)))) := by
  unfold postprocessPredictions
  by_cases h :
      predictions.filter (fun w => decide (config.confidence_threshold ≤ w.2)) = []
  · simp [h, mergeSegments, emitSegments]
  · simp [h]

/-- C1: Segment Builder merge rule.  During the single pass over the
positive predictions, a prediction (t, p) is absorbed into the open
segment exactly when t is at most the current end plus the merge gap, in
which case the end becomes t plus the window duration and p joins the
confidence accumulator; otherwise the segment is closed and a new one is
opened at t.  For two positive windows the output is one merged segment
exactly when the second start is within window duration plus merge gap of
the first; in particular windows at 0s and 1.29s merge under the default
configuration (window 1.0s, gap 0.3s) while windows at 0s and 1.31s give
two segments. -/
theorem C1_merge_rule :
    (∀ (t1 t2 p1 p2 : ℚ) (config : ModelConfig),
      config.confidence_threshold ≤ p1 →
      config.confidence_threshold ≤ p2 →
      t1 ≤ t2 →
      config.min_segment_duration_ms ≤ config.window_size_ms →
      postprocessPredictions [(t1, p1), (t2, p2)] config =
        if t2 ≤ t1 + (config.window_size_ms : ℚ) / 1000 + (config.merge_gap_ms : ℚ) / 1000 then
          [{ start_seconds := t1
             end_seconds := t2 + (config.window_size_ms : ℚ) / 1000
             confidence := (p1 + p2) / 2
             label := "target_audio" }]
        else
          [{ start_seconds := t1
             end_seconds := t1 + (config.window_size_ms : ℚ) / 1000
             confidence := p1
             label := "target_audio" },
           { start_seconds := t2
             end_seconds := t2 + (config.window_size_ms : ℚ) / 1000
             confidence := p2
             label := "target_audio" }]) ∧
    postprocessPredictions [(0, 1), (129/100, 1)] {} =
      [{ start_seconds := 0, end_seconds := 229/100, confidence := 1,
         label := "target_audio" }] ∧
    postprocessPredictions [(0, 1), (131/100, 1)] {} =
      [{ start_seconds := 0, end_seconds := 1, confidence := 1, label := "target_audio" },
       { start_seconds := 131/100, end_seconds := 231/100, confidence := 1,
         label := "target_audio" }] := by
  refine ⟨?_, ?_, ?_⟩
  · intro t1 t2 p1 p2 config hp1 hp2 ht hms
    rw [postprocess_eq]
    have hf : ([(t1, p1), (t2, p2)] : List (ℚ × ℚ)).filter
        (fun w => decide (config.confidence_threshold ≤ w.2)) = [(t1, p1), (t2, p2)] := by
      simp [List.filter_cons, hp1, hp2]
    rw [hf]
    have hmin : (config.min_segment_duration_ms : ℚ) / 1000 ≤
        (config.window_size_ms : ℚ) / 1000 := by
      have hc : (config.min_segment_duration_ms : ℚ) ≤ (config.window_size_ms : ℚ) := by
        exact_mod_cast hms
      linarith
    by_cases hm :
        t2 ≤ t1 + (config.window_size_ms : ℚ) / 1000 + (config.merge_gap_ms : ℚ) / 1000
    · rw [if_pos hm]
      have hk : (config.min_segment_duration_ms : ℚ) / 1000 ≤
          segDur { start := t1, endS := t2 + (config.window_size_ms : ℚ) / 1000,
                   confidences := [p1, p2] } := by
        simp only [segDur]
        linarith
      simp only [mergeSegments, mergeLoop]
      rw [if_pos (by simpa using hm)]
      simp [emitSegments, hk, RawSegment.emit, listMean]
      try norm_num
      try ring
    · rw [if_neg hm]
      have hk1 : (config.min_segment_duration_ms : ℚ) / 1000 ≤
          segDur { start := t1, endS := t1 + (config.window_size_ms : ℚ) / 1000,
                   confidences := [p1] } := by
        simp only [segDur]; linarith
      have hk2 : (config.min_segment_duration_ms : ℚ) / 1000 ≤
          segDur { start := t2, endS := t2 + (config.window_size_ms : ℚ) / 1000,
                   confidences := [p2] } := by
        simp only [segDur]; linarith
      simp only [mergeSegments, mergeLoop]
      rw [if_neg (by simpa using hm)]
      simp [emitSegments, hk1, hk2, RawSegment.emit, listMean, mergeLoop]
  · rw [postprocess_eq]
    norm_num [List.filter_cons, mergeSegments, mergeLoop, emitSegments,
      RawSegment.emit, listMean, segDur]
  · rw [postprocess_eq]
    norm_num [List.filter_cons, mergeSegments, mergeLoop, emitSegments,
      RawSegment.emit, listMean, segDur]

/-- C1 witness: the merge rule applied at the concrete 1.29s example. -/
theorem C1_merge_rule_witness :
    ((({} : ModelConfig).confidence_threshold ≤ (1:ℚ)) ∧ ((0:ℚ) ≤ 129/100) ∧
      (({} : ModelConfig).min_segment_duration_ms ≤ ({} : ModelConfig).window_size_ms)) ∧
    postprocessPredictions [((0:ℚ), (1:ℚ)), ((129:ℚ)/100, 1)] {} =
      [{ start_seconds := 0, end_seconds := 229/100, confidence := 1,
         label := "target_audio" }] := by
  refine ⟨⟨by norm_num, by norm_num, by norm_num⟩, ?_⟩
  have h := C1_merge_rule.1 0 (129/100) 1 1 {} (by norm_num) (by norm_num)
    (by norm_num) (by norm_num)
  rw [if_pos (by norm_num)] at h
  refine h.trans ?_
  norm_num

/-- C2: the claim states that for a Signal shorter than one window the
pipeline still emits exactly one zero padded window.  The code does not:
window_starts = range(0, L - W + 1, H) is empty when L is less than W, so
the inference loop emits zero predictions and never zero pads, while the
progress denominator total_windows = max(1, (L - W) // H + 1) in the same
function asserts one window.  For L at least W the emitted count does
match the claimed max(1, (L - W) // H + 1), shown at a concrete input. -/
theorem C2_short_signal_zero_windows :
    numPredictions 8000 16000 4000 = 0 ∧
    totalWindows 8000 16000 4000 = 1 ∧
    runInference (fun _ => 1) 8000 16000 4000 1 = [] ∧
    numPredictions 32000 16000 4000 = 5 ∧
    totalWindows 32000 16000 4000 = 5 := by
  refine ⟨by decide, by decide, ?_, by decide, by decide⟩
  have h : windowStarts 8000 16000 4000 = [] := by decide
  simp [runInference, h, toBatches, toBatchesAux]

/-- C3 counterexample: with positive windows at 0.004s and 0.006s under
the default configuration, the serialized result reports
detected_duration_seconds = 1.0 (the pre rounding duration 1.002 rounded
to 2 decimals), while the sum of the reported rounded segment boundaries
is 1.01 - 0.0 = 1.01: the reported total is not the sum of the durations
of the reported segments. -/
theorem C3_rounded_sum_counterexample :
    (processResult (postprocessPredictions [(1/250, 1), (3/500, 1)] {})
        2).detected_duration_seconds = 1 ∧
    ((processResult (postprocessPredictions [(1/250, 1), (3/500, 1)] {}) 2).segments.map
        (fun s => s.end_seconds - s.start_seconds)).sum = 101/100 ∧
    (processResult (postprocessPredictions [(1/250, 1), (3/500, 1)] {})
        2).detected_duration_seconds ≠
      ((processResult (postprocessPredictions [(1/250, 1), (3/500, 1)] {}) 2).segments.map
        (fun s => s.end_seconds - s.start_seconds)).sum := by
  have hseg : postprocessPredictions [(1/250, 1), (3/500, 1)] {} =
      [{ start_seconds := 1/250, end_seconds := 503/500, confidence := 1,
         label := "target_audio" }] := by
    rw [postprocess_eq]
    norm_num [List.filter_cons, mergeSegments, mergeLoop, emitSegments,
      RawSegment.emit, listMean, segDur]
  refine ⟨?_, ?_, ?_⟩ <;>
  · rw [hseg]
    norm_num [processResult, AudioDetectionResult.toDict, TimestampSegment.toDict,
      detectedDuration, pyRound, roundHalfEven]

/-- C3 amended: process computes detected_duration_seconds as the sum of
(end - start) over the pre rounding segment values, and only that total is
then rounded to 2 decimal places in the serialized result; it is not
computed from the already rounded boundary values, so the reported total
can differ from the sum of the reported rounded segment durations. -/
theorem C3_detected_duration_prerounded (segments : List TimestampSegment)
    (total_duration : ℚ) :
    (processResult segments total_duration).detected_duration_seconds =
      pyRound 2 ((segments.map (fun s => s.end_seconds - s.start_seconds)).sum) := by
  simp [processResult, AudioDetectionResult.toDict, detectedDuration, foldl_add_map]

/-- C4 counterexample: a surviving segment is serialized with label
target_audio, not target_event as the claim states. -/
theorem C4_label_counterexample :
    (postprocessPredictions [((0:ℚ), (1:ℚ))] {}).map TimestampSegment.toDict =
      [{ start_seconds := 0, end_seconds := 1, confidence := 1, label := "target_audio" }] ∧
    ("target_audio" : String) ≠ "target_event" := by
  constructor
  · have hseg : postprocessPredictions [((0:ℚ), (1:ℚ))] {} =
        [{ start_seconds := 0, end_seconds := 1, confidence := 1,
           label := "target_audio" }] := by
      rw [postprocess_eq]
      norm_num [List.filter_cons, mergeSegments, mergeLoop, emitSegments,
        RawSegment.emit, listMean, segDur]
    rw [hseg]
    norm_num [TimestampSegment.toDict, pyRound, roundHalfEven]
  · decide

/-- C4 amended: every segment surviving the minimum duration filter is
serialized with confidence equal to the arithmetic mean of the absorbed
probabilities rounded to 3 decimal places, start and end rounded to 2
decimal places, and label equal to the string target_audio. -/
theorem C4_emitted_fields (predictions : List (ℚ × ℚ)) (config : ModelConfig) :
    (postprocessPredictions predictions config).map TimestampSegment.toDict =
      ((mergeSegments ((config.window_size_ms : ℚ) / 1000)
          ((config.merge_gap_ms : ℚ) / 1000)
          (predictions.filter (fun w => decide (config.confidence_threshold ≤ w.2)))).filter
        (fun s => decide ((config.min_segment_duration_ms : ℚ) / 1000 ≤ segDur s))).map
        (fun s =>
          { start_seconds := pyRound 2 s.start
            end_seconds := pyRound 2 s.endS
            confidence := pyRound 3 (listMean s.confidences)
            label := "target_audio" }) := by
  rw [postprocess_eq, emitSegments_eq_filter_map, List.map_map]
  rfl

/-- C8: the Segment Builder never fails on all negative input: when every
probability is below the threshold the segment list is empty, and the
reported detected_duration_seconds of the assembled result is 0. -/
theorem C8_all_negative_empty (predictions : List (ℚ × ℚ)) (config : ModelConfig)
    (total_duration : ℚ)
    (h : ∀ w ∈ predictions, w.2 < config.confidence_threshold) :
    postprocessPredictions predictions config = [] ∧
    (processResult (postprocessPredictions predictions config)
        total_duration).detected_duration_seconds = 0 ∧
    (processResult (postprocessPredictions predictions config) total_duration).segments = [] := by
  have hf : predictions.filter (fun w => decide (config.confidence_threshold ≤ w.2)) = [] := by
    rw [List.filter_eq_nil_iff]
    intro w hw
    simpa using not_le.mpr (h w hw)
  have hp : postprocessPredictions predictions config = [] := by
    unfold postprocessPredictions
    simp [hf]
  refine ⟨hp, ?_, ?_⟩
  · rw [hp]
    norm_num [processResult, AudioDetectionResult.toDict, detectedDuration,
      pyRound, roundHalfEven]
  · rw [hp]
    simp [processResult, AudioDetectionResult.toDict]

/-- C8 witness: the all negative case at a concrete input. -/
theorem C8_all_negative_empty_witness :
    (∀ w ∈ ([((0:ℚ), (1:ℚ)/2)] : List (ℚ × ℚ)), w.2 < ({} : ModelConfig).confidence_threshold) ∧
    postprocessPredictions [((0:ℚ), (1:ℚ)/2)] {} = [] ∧
    (processResult (postprocessPredictions [((0:ℚ), (1:ℚ)/2)] {}) 3).detected_duration_seconds
      = 0 := by
  have hin : ∀ w ∈ ([((0:ℚ), (1:ℚ)/2)] : List (ℚ × ℚ)),
      w.2 < ({} : ModelConfig).confidence_threshold := by
    intro w hw
    simp only [List.mem_singleton] at hw
    subst hw
    norm_num
  have h := C8_all_negative_empty [((0:ℚ), (1:ℚ)/2)] {} 3 hin
  exact ⟨hin, h.1, h.2.1⟩

/-- C9: after merging, a closed segment is dropped exactly when its
duration is strictly below min_duration_seconds (the output is the filter
of the merged segments by duration at least min_duration), and a single
isolated positive window whose window duration is below the minimum
duration is dropped entirely. -/
theorem C9_min_duration_filter :
    (∀ (predictions : List (ℚ × ℚ)) (config : ModelConfig),
      postprocessPredictions predictions config =
        ((mergeSegments ((config.window_size_ms : ℚ) / 1000)
            ((config.merge_gap_ms : ℚ) / 1000)
            (predictions.filter (fun w => decide (config.confidence_threshold ≤ w.2)))).filter
          (fun s => decide ((config.min_segment_duration_ms : ℚ) / 1000 ≤ segDur s))).map
          RawSegment.emit) ∧
    (∀ (t p : ℚ) (config : ModelConfig),
      config.confidence_threshold ≤ p →
      (config.window_size_ms : ℚ) / 1000 < (config.min_segment_duration_ms : ℚ) / 1000 →
      postprocessPredictions [(t, p)] config = []) := by
  constructor
  · intro predictions config
    rw [postprocess_eq, emitSegments_eq_filter_map]
  · intro t p config hp hlt
    rw [postprocess_eq]
    have hf : ([(t, p)] : List (ℚ × ℚ)).filter
        (fun w => decide (config.confidence_threshold ≤ w.2)) = [(t, p)] := by
      simp [List.filter_cons, hp]
    rw [hf]
    have hdrop : ¬ ((config.min_segment_duration_ms : ℚ) / 1000 ≤
        segDur { start := t, endS := t + (config.window_size_ms : ℚ) / 1000,
                 confidences := [p] }) := by
      simp only [segDur]
      intro hc
      linarith
    simp [mergeSegments, mergeLoop, emitSegments, hdrop]

/-- C9 witness: an isolated 1 second positive window is dropped when the
minimum segment duration is 2 seconds. -/
theorem C9_min_duration_filter_witness :
    ((({ min_segment_duration_ms := 2000 } : ModelConfig).confidence_threshold ≤ (1:ℚ)) ∧
      ((({ min_segment_duration_ms := 2000 } : ModelConfig).window_size_ms : ℚ) / 1000 <
        (({ min_segment_duration_ms := 2000 } : ModelConfig).min_segment_duration_ms : ℚ) / 1000)) ∧
    postprocessPredictions [((0:ℚ), (1:ℚ))] { min_segment_duration_ms := 2000 } = [] := by
  refine ⟨⟨by norm_num, by norm_num⟩, ?_⟩
  exact C9_min_duration_filter.2 0 1 { min_segment_duration_ms := 2000 }
    (by norm_num) (by norm_num)

/-! Structural facts about the merge loop, used for the ordering and
duration invariants. -/

lemma mergeLoop_struct (wd gap : ℚ) :
    ∀ (l : List (ℚ × ℚ)) (cur : RawSegment),
      l.Pairwise (fun a b => a.1 ≤ b.1) →
      (∀ w ∈ l, cur.endS ≤ w.1 + wd) →
      (∀ w ∈ l, cur.start ≤ w.1) →
      cur.start + wd ≤ cur.endS →
      (∀ s ∈ mergeLoop wd gap cur l, s.start + wd ≤ s.endS) ∧
      (∀ s ∈ mergeLoop wd gap cur l, cur.start ≤ s.start) ∧
      (mergeLoop wd gap cur l).Pairwise (fun a b => a.endS + gap < b.start) := by
  intro l
  induction l with
  | nil =>
    intro cur _ _ _ hdur
    refine ⟨?_, ?_, ?_⟩
    · intro s hs
      simp only [mergeLoop, List.mem_singleton] at hs
      subst hs
      exact hdur
    · intro s hs
      simp only [mergeLoop, List.mem_singleton] at hs
      subst hs
      exact le_refl _
    · simp [mergeLoop]
  | cons w rest ih =>
    intro cur hpair hA hstart hdur
    rw [List.pairwise_cons] at hpair
    obtain ⟨hw, hpair'⟩ := hpair
    have hwA : cur.endS ≤ w.1 + wd := hA w (List.mem_cons_self w rest)
    have hwS : cur.start ≤ w.1 := hstart w (List.mem_cons_self w rest)
    by_cases habs : w.1 ≤ cur.endS + gap
    · have hrec := ih { cur with endS := w.1 + wd, confidences := cur.confidences ++ [w.2] }
        hpair'
        (by intro x hx; simpa using by linarith [hw x hx])
        (by intro x hx; simpa using le_trans hwS (hw x hx))
        (by simpa using by linarith)
      simp only [mergeLoop, if_pos habs]
      refine ⟨hrec.1, ?_, hrec.2.2⟩
      intro s hs
      simpa using hrec.2.1 s hs
    · have hrec := ih { start := w.1, endS := w.1 + wd, confidences := [w.2] }
        hpair'
        (by intro x hx; simpa using by linarith [hw x hx])
        (by intro x hx; simpa using hw x hx)
        (by simp)
      simp only [mergeLoop, if_neg habs]
      refine ⟨?_, ?_, ?_⟩
      · intro s hs
        rcases List.mem_cons.mp hs with h | h
        · subst h; exact hdur
        · exact hrec.1 s h
      · intro s hs
        rcases List.mem_cons.mp hs with h | h
        · subst h; exact le_refl _
        · exact le_trans hwS (by simpa using hrec.2.1 s h)
      · rw [List.pairwise_cons]
        refine ⟨?_, hrec.2.2⟩
        intro s hs
        have hws : w.1 ≤ s.start := by simpa using hrec.2.1 s hs
        have : cur.endS + gap < w.1 := lt_of_not_ge (fun hcon => habs (by linarith))
        linarith

lemma mergeSegments_struct (wd gap : ℚ) (l : List (ℚ × ℚ))
    (hpair : l.Pairwise (fun a b => a.1 ≤ b.1)) :
    (∀ s ∈ mergeSegments wd gap l, s.start + wd ≤ s.endS) ∧
    (mergeSegments wd gap l).Pairwise (fun a b => a.endS + gap < b.start) := by
  cases l with
  | nil => simp [mergeSegments]
  | cons w rest =>
    rw [List.pairwise_cons] at hpair
    have h := mergeLoop_struct wd gap rest
      { start := w.1, endS := w.1 + wd, confidences := [w.2] }
      hpair.2
      (by intro x hx; simpa using by linarith [hpair.1 x hx])
      (by intro x hx; simpa using hpair.1 x hx)
      (by simp)
    exact ⟨h.1, h.2.2⟩

/-- C10: for predictions sorted by start time, every segment built by the
merge pass has duration at least the window duration even before the
minimum duration filter runs; consequently, whenever
min_segment_duration_ms is at most window_size_ms (as with the defaults
500 and 1000), the minimum duration filter removes no segment at all. -/
theorem C10_segment_duration_lower_bound :
    ∀ (predictions : List (ℚ × ℚ)) (config : ModelConfig),
      predictions.Pairwise (fun a b => a.1 ≤ b.1) →
      0 < (config.window_size_ms : ℚ) →
      (∀ s ∈ mergeSegments ((config.window_size_ms : ℚ) / 1000)
          ((config.merge_gap_ms : ℚ) / 1000)
          (predictions.filter (fun w => decide (config.confidence_threshold ≤ w.2))),
        (config.window_size_ms : ℚ) / 1000 ≤ segDur s) ∧
      (config.min_segment_duration_ms ≤ config.window_size_ms →
        postprocessPredictions predictions config =
          (mergeSegments ((config.window_size_ms : ℚ) / 1000)
            ((config.merge_gap_ms : ℚ) / 1000)
            (predictions.filter (fun w => decide (config.confidence_threshold ≤ w.2)))).map
            RawSegment.emit) := by
  intro predictions config hpair _
  have hpairP : (predictions.filter
      (fun w => decide (config.confidence_threshold ≤ w.2))).Pairwise
      (fun a b => a.1 ≤ b.1) := hpair.filter _
  have hs := mergeSegments_struct ((config.window_size_ms : ℚ) / 1000)
    ((config.merge_gap_ms : ℚ) / 1000) _ hpairP
  have hdur : ∀ s ∈ mergeSegments ((config.window_size_ms : ℚ) / 1000)
      ((config.merge_gap_ms : ℚ) / 1000)
      (predictions.filter (fun w => decide (config.confidence_threshold ≤ w.2))),
      (config.window_size_ms : ℚ) / 1000 ≤ segDur s := by
    intro s hsm
    have := hs.1 s hsm
    simp only [segDur]
    linarith
  refine ⟨hdur, ?_⟩
  intro hms
  rw [postprocess_eq, emitSegments_eq_filter_map]
  congr 1
  rw [List.filter_eq_self]
  intro s hsm
  have hmin : (config.min_segment_duration_ms : ℚ) / 1000 ≤
      (config.window_size_ms : ℚ) / 1000 := by
    have hc : (config.min_segment_duration_ms : ℚ) ≤ (config.window_size_ms : ℚ) := by
      exact_mod_cast hms
    linarith
  simpa using le_trans hmin (hdur s hsm)

/-- C10 witness: the duration lower bound and the no-drop consequence at a
concrete sorted input under the default configuration. -/
theorem C10_segment_duration_lower_bound_witness :
    (([((0:ℚ), (1:ℚ)), ((1:ℚ)/4, (1:ℚ))] : List (ℚ × ℚ)).Pairwise (fun a b => a.1 ≤ b.1) ∧
      (0:ℚ) < (({} : ModelConfig).window_size_ms : ℚ) ∧
      ({} : ModelConfig).min_segment_duration_ms ≤ ({} : ModelConfig).window_size_ms) ∧
    postprocessPredictions [((0:ℚ), (1:ℚ)), ((1:ℚ)/4, (1:ℚ))] {} =
      (mergeSegments ((({} : ModelConfig).window_size_ms : ℚ) / 1000)
        ((({} : ModelConfig).merge_gap_ms : ℚ) / 1000)
        (([((0:ℚ), (1:ℚ)), ((1:ℚ)/4, (1:ℚ))] : List (ℚ × ℚ)).filter
          (fun w => decide (({} : ModelConfig).confidence_threshold ≤ w.2)))).map
        RawSegment.emit := by
  have hpair : ([((0:ℚ), (1:ℚ)), ((1:ℚ)/4, (1:ℚ))] : List (ℚ × ℚ)).Pairwise
      (fun a b => a.1 ≤ b.1) := by
    refine List.Pairwise.cons ?_ (List.pairwise_singleton _ _)
    intro b hb
    simp only [List.mem_singleton] at hb
    subst hb
    norm_num
  refine ⟨⟨hpair, by norm_num, by norm_num⟩, ?_⟩
  exact (C10_segment_duration_lower_bound [((0:ℚ), (1:ℚ)), ((1:ℚ)/4, (1:ℚ))] {}
    hpair (by norm_num)).2 (by norm_num)

/-- C5: for predictions sorted by start time and a configuration with
nonnegative window duration and merge gap, the emitted segments are in
nondecreasing start order and pairwise nonoverlapping, each end at most
the next start minus the merge gap. -/
theorem C5_segments_sorted_disjoint :
    ∀ (predictions : List (ℚ × ℚ)) (config : ModelConfig),
      predictions.Pairwise (fun a b => a.1 ≤ b.1) →
      0 ≤ config.window_size_ms →
      0 ≤ config.merge_gap_ms →
      (postprocessPredictions predictions config).Pairwise
        (fun a b => a.start_seconds ≤ b.start_seconds ∧
          a.end_seconds ≤ b.start_seconds - (config.merge_gap_ms : ℚ) / 1000) := by
  intro predictions config hpair hwd hgap
  have hwdQ : (0:ℚ) ≤ (config.window_size_ms : ℚ) / 1000 := by
    have : (0:ℚ) ≤ (config.window_size_ms : ℚ) := by exact_mod_cast hwd
    linarith
  have hgapQ : (0:ℚ) ≤ (config.merge_gap_ms : ℚ) / 1000 := by
    have : (0:ℚ) ≤ (config.merge_gap_ms : ℚ) := by exact_mod_cast hgap
    linarith
  have hpairP : (predictions.filter
      (fun w => decide (config.confidence_threshold ≤ w.2))).Pairwise
      (fun a b => a.1 ≤ b.1) := hpair.filter _
  have hs := mergeSegments_struct ((config.window_size_ms : ℚ) / 1000)
    ((config.merge_gap_ms : ℚ) / 1000) _ hpairP
  rw [postprocess_eq, emitSegments_eq_filter_map]
  have h2 : (mergeSegments ((config.window_size_ms : ℚ) / 1000)
      ((config.merge_gap_ms : ℚ) / 1000)
      (predictions.filter (fun w => decide (config.confidence_threshold ≤ w.2)))).Pairwise
      (fun a b => a.start ≤ b.start ∧
        a.endS ≤ b.start - (config.merge_gap_ms : ℚ) / 1000) := by
    refine List.Pairwise.imp_of_mem ?_ hs.2
    intro a b ha _ hab
    have hda := hs.1 a ha
    constructor
    · linarith
    · linarith
  have h3 := h2.filter (fun s => decide ((config.min_segment_duration_ms : ℚ) / 1000 ≤ segDur s))
  exact h3.map _ (by intro a b hab; simpa [RawSegment.emit] using hab)

/-- C5 witness: sorted disjoint output at a concrete input producing two
segments under the default configuration. -/
theorem C5_segments_sorted_disjoint_witness :
    (([((0:ℚ), (1:ℚ)), ((2:ℚ), (1:ℚ))] : List (ℚ × ℚ)).Pairwise (fun a b => a.1 ≤ b.1) ∧
      (0:ℤ) ≤ ({} : ModelConfig).window_size_ms ∧
      (0:ℤ) ≤ ({} : ModelConfig).merge_gap_ms) ∧
    (postprocessPredictions [((0:ℚ), (1:ℚ)), ((2:ℚ), (1:ℚ))] {}).Pairwise
      (fun a b => a.start_seconds ≤ b.start_seconds ∧
        a.end_seconds ≤ b.start_seconds - ((({} : ModelConfig).merge_gap_ms : ℚ) / 1000)) := by
  have hpair : ([((0:ℚ), (1:ℚ)), ((2:ℚ), (1:ℚ))] : List (ℚ × ℚ)).Pairwise
      (fun a b => a.1 ≤ b.1) := by
    refine List.Pairwise.cons ?_ (List.pairwise_singleton _ _)
    intro b hb
    simp only [List.mem_singleton] at hb
    subst hb
    norm_num
  refine ⟨⟨hpair, by norm_num, by norm_num⟩, ?_⟩
  exact C5_segments_sorted_disjoint [((0:ℚ), (1:ℚ)), ((2:ℚ), (1:ℚ))] {}
    hpair (by norm_num) (by norm_num)

/-! Batch invariance. -/

lemma toBatchesAux_flatten (b : ℕ) :
    ∀ (fuel : ℕ) (l : List ℤ), l.length ≤ fuel → (toBatchesAux b fuel l).flatten = l := by
  intro fuel
  induction fuel with
  | zero =>
    intro l hl
    cases l with
    | nil => rfl
    | cons x xs => simp at hl
  | succ n ih =>
    intro l hl
    cases l with
    | nil => rfl
    | cons x xs =>
      have hlen : (xs.drop (b - 1)).length ≤ n := by
        simp only [List.length_drop]
        simp only [List.length_cons] at hl
        omega
      simp only [toBatchesAux, List.flatten_cons, ih _ hlen]
      simp [List.cons_append, List.take_append_drop]

lemma toBatches_flatten (b : ℕ) (l : List ℤ) : (toBatches b l).flatten = l :=
  toBatchesAux_flatten b l.length l le_rfl

/-- C7: batch invariance of the inference loop.  For any pure per-window
classifier the predictions produced with any positive batch size are
identical, value and order, to those produced one window at a time; batch
partitioning changes neither which predictions appear nor their order. -/
theorem C7_batch_invariance (f : ℤ → ℚ) (L W H : ℤ) (batch_size : ℕ)
    (_hb : 0 < batch_size) :
    runInference f L W H batch_size = runInference f L W H 1 := by
  have key : ∀ (b : ℕ),
      runInference f L W H b =
        (windowStarts L W H).map
          (fun (s : ℤ) => ((s : ℚ) / (SAMPLE_RATE : ℚ), f s)) := by
    intro b
    unfold runInference
    rw [← List.map_flatten, toBatches_flatten]
  rw [key, key]

/-- C7 witness: batch size 32 agrees with batch size 1 at a concrete
signal of 32000 samples. -/
theorem C7_batch_invariance_witness :
    0 < 32 ∧
    runInference (fun _ => 1/2) 32000 16000 4000 32 =
      runInference (fun _ => 1/2) 32000 16000 4000 1 :=
  ⟨by norm_num, C7_batch_invariance (fun _ => 1/2) 32000 16000 4000 32 (by norm_num)⟩

/-! Threshold monotonicity machinery.  keptDur is the total duration the
minimum duration filter lets through; smallF replays the merge loop on the
sublist of windows selected by a boolean predicate q (the higher
threshold), element by element along the original list, so that the two
runs can be related by one induction. -/

/-- Total duration of the merged segments that pass the minimum duration
filter. -/
def keptDur (m : ℚ) (l : List RawSegment) : ℚ :=
  ((l.filter (fun s => decide (m ≤ segDur s))).map segDur).sum

/-- Like keptDur, but the head segment is charged a slack taken off its
duration; used to track the head room consumed by the sub run. -/
def adjDur (m slack : ℚ) : List RawSegment → ℚ
  | [] => 0
  | s :: rest => (if m ≤ segDur s then segDur s - slack else 0) + keptDur m rest

/-- The merge loop restricted to the windows selected by q, stepping along
the full window list with an optional open segment. -/
def smallF (wd gap : ℚ) (q : ℚ × ℚ → Bool) :
    Option RawSegment → List (ℚ × ℚ) → List RawSegment
  | none, [] => []
  | some cur, [] => [cur]
  | none, w :: rest =>
    if q w then
      smallF wd gap q (some { start := w.1, endS := w.1 + wd, confidences := [w.2] }) rest
    else smallF wd gap q none rest
  | some cur, w :: rest =>
    if q w then
      if w.1 ≤ cur.endS + gap then
        smallF wd gap q
          (some { cur with endS := w.1 + wd, confidences := cur.confidences ++ [w.2] }) rest
      else
        cur :: smallF wd gap q
          (some { start := w.1, endS := w.1 + wd, confidences := [w.2] }) rest
    else smallF wd gap q (some cur) rest

lemma keptDur_nil (m : ℚ) : keptDur m [] = 0 := rfl

lemma keptDur_cons (m : ℚ) (s : RawSegment) (l : List RawSegment) :
    keptDur m (s :: l) = (if m ≤ segDur s then segDur s else 0) + keptDur m l := by
  by_cases h : m ≤ segDur s <;> simp [keptDur, List.filter_cons, h]

lemma adjDur_zero (m : ℚ) : ∀ l : List RawSegment, adjDur m 0 l = keptDur m l := by
  intro l
  cases l with
  | nil => rfl
  | cons s rest => by_cases h : m ≤ segDur s <;> simp [adjDur, keptDur_cons, h]

lemma adjDur_le (m slack : ℚ) (hs : 0 ≤ slack) :
    ∀ l : List RawSegment, adjDur m slack l ≤ keptDur m l := by
  intro l
  cases l with
  | nil => exact le_refl _
  | cons s rest =>
    by_cases h : m ≤ segDur s
    · simp only [adjDur, keptDur_cons, if_pos h]
      linarith
    · simp only [adjDur, keptDur_cons, if_neg h]
      exact le_refl _

lemma smallF_some (wd gap : ℚ) (q : ℚ × ℚ → Bool) :
    ∀ (l : List (ℚ × ℚ)) (cur : RawSegment),
      smallF wd gap q (some cur) l = mergeLoop wd gap cur (l.filter q) := by
  intro l
  induction l with
  | nil => intro cur; rfl
  | cons w rest ih =>
    intro cur
    by_cases hq : q w = true
    · by_cases habs : w.1 ≤ cur.endS + gap <;>
        simp [smallF, List.filter_cons, hq, mergeLoop, habs, ih]
    · simp [smallF, List.filter_cons, hq, ih]

lemma smallF_none (wd gap : ℚ) (q : ℚ × ℚ → Bool) :
    ∀ l : List (ℚ × ℚ),
      smallF wd gap q none l = mergeSegments wd gap (l.filter q) := by
  intro l
  induction l with
  | nil => rfl
  | cons w rest ih =>
    by_cases hq : q w = true
    · simp [smallF, List.filter_cons, hq, mergeSegments, smallF_some]
    · simp [smallF, List.filter_cons, hq, ih]

lemma smallF_lag (wd gap : ℚ) (q : ℚ × ℚ → Bool) :
    ∀ (l : List (ℚ × ℚ)) (cur : RawSegment),
      (∀ w ∈ l, q w = true → cur.endS + gap < w.1) →
      smallF wd gap q (some cur) l = cur :: smallF wd gap q none l := by
  intro l
  induction l with
  | nil => intro cur _; rfl
  | cons w rest ih =>
    intro cur hlag
    by_cases hq : q w = true
    · have h := hlag w (List.mem_cons_self _ _) hq
      simp [smallF, hq, if_neg (not_le.mpr h)]
    · simp only [smallF, hq, if_neg (by simp [hq] : ¬ (q w = true))]
      exact ih cur (fun x hx hqx => hlag x (List.mem_cons_of_mem _ hx) hqx)

lemma mergeLoop_head (wd gap : ℚ) :
    ∀ (l : List (ℚ × ℚ)) (cur : RawSegment),
      l.Pairwise (fun a b => a.1 ≤ b.1) →
      (∀ w ∈ l, cur.endS ≤ w.1 + wd) →
      ∃ c tl, mergeLoop wd gap cur l = c :: tl ∧ c.start = cur.start ∧ cur.endS ≤ c.endS := by
  intro l
  induction l with
  | nil => intro cur _ _; exact ⟨cur, [], rfl, rfl, le_refl _⟩
  | cons w rest ih =>
    intro cur hpair hA
    rw [List.pairwise_cons] at hpair
    have hwA : cur.endS ≤ w.1 + wd := hA w (List.mem_cons_self _ _)
    by_cases habs : w.1 ≤ cur.endS + gap
    · obtain ⟨c, tl, heq, hst, hend⟩ :=
        ih { cur with endS := w.1 + wd, confidences := cur.confidences ++ [w.2] }
          hpair.2 (by intro x hx; simpa using by linarith [hpair.1 x hx])
      refine ⟨c, tl, ?_, ?_, ?_⟩
      · simp only [mergeLoop, if_pos habs]
        exact heq
      · simpa using hst
      · have h2 : w.1 + wd ≤ c.endS := by simpa using hend
        linarith
    · exact ⟨cur, mergeLoop wd gap { start := w.1, endS := w.1 + wd, confidences := [w.2] } rest,
        by simp only [mergeLoop, if_neg habs], rfl, le_refl _⟩

/-- Joint induction comparing the merge run on all windows (state curA)
with the run on the q selected windows (state curB contained in curA, or
no open segment).  The filtered run never keeps more duration than the
full run, up to the slack already consumed at the head. -/
lemma mergeMono (wd gap m : ℚ) (q : ℚ × ℚ → Bool) (hwd : 0 ≤ wd) (hgap : 0 ≤ gap) :
    ∀ l : List (ℚ × ℚ), l.Pairwise (fun a b => a.1 ≤ b.1) →
      (∀ curA curB : RawSegment,
        (∀ w ∈ l, curA.endS ≤ w.1 + wd) →
        curA.start ≤ curB.start → curB.endS ≤ curA.endS →
        curA.start ≤ curA.endS → curB.start ≤ curB.endS →
        keptDur m (smallF wd gap q (some curB) l) ≤
          adjDur m (curB.start - curA.start) (mergeLoop wd gap curA l)) ∧
      (∀ curA : RawSegment,
        (∀ w ∈ l, curA.endS ≤ w.1 + wd) →
        (∀ w ∈ l, curA.start ≤ w.1) →
        curA.start ≤ curA.endS →
        keptDur m (smallF wd gap q none l) ≤ keptDur m (mergeLoop wd gap curA l)) := by
  intro l
  induction l with
  | nil =>
    intro _
    constructor
    · intro curA curB _ hss hee hwfA hwfB
      simp only [smallF, mergeLoop, adjDur, keptDur_cons, keptDur_nil]
      by_cases hkB : m ≤ segDur curB
      · have hkA : m ≤ segDur curA := by
          simp only [segDur] at hkB ⊢
          linarith
        rw [if_pos hkB, if_pos hkA]
        simp only [segDur]
        linarith
      · rw [if_neg hkB]
        by_cases hkA : m ≤ segDur curA
        · rw [if_pos hkA]
          simp only [segDur]
          linarith
        · rw [if_neg hkA]
          try linarith
    · intro curA _ _ hwfA
      simp only [smallF, mergeLoop, keptDur_cons, keptDur_nil]
      by_cases hkA : m ≤ segDur curA
      · rw [if_pos hkA]
        simp only [segDur]
        linarith
      · rw [if_neg hkA]
        try linarith
  | cons w rest ih =>
    intro hpair
    rw [List.pairwise_cons] at hpair
    obtain ⟨hw, hpair'⟩ := hpair
    obtain ⟨ihM, ihN⟩ := ih hpair'
    constructor
    · intro curA curB hA hss hee hwfA hwfB
      have hwA : curA.endS ≤ w.1 + wd := hA w (List.mem_cons_self _ _)
      by_cases hq : q w = true
      · by_cases hB : w.1 ≤ curB.endS + gap
        · -- both runs absorb w
          have hABig : w.1 ≤ curA.endS + gap := by linarith
          have step := ihM
            (⟨curA.start, w.1 + wd, curA.confidences ++ [w.2]⟩ : RawSegment)
            (⟨curB.start, w.1 + wd, curB.confidences ++ [w.2]⟩ : RawSegment)
            (by intro x hx; simpa using by linarith [hw x hx])
            (by simpa using hss)
            (by simp)
            (by simpa using by linarith)
            (by simpa using by linarith)
          have eL : smallF wd gap q (some curB) (w :: rest) =
              smallF wd gap q
                (some (⟨curB.start, w.1 + wd, curB.confidences ++ [w.2]⟩ : RawSegment)) rest := by
            simp [smallF, hq, hB]
          have eR : mergeLoop wd gap curA (w :: rest) =
              mergeLoop wd gap
                (⟨curA.start, w.1 + wd, curA.confidences ++ [w.2]⟩ : RawSegment) rest := by
            simp [mergeLoop, hABig]
          rw [eL, eR]
          simpa using step
        · by_cases hABs : w.1 ≤ curA.endS + gap
          · -- the filtered run closes curB, the full run absorbs w
            have hsB : curB.start ≤ w.1 := by
              have := not_le.mp hB
              linarith
            have hBe : curB.endS < w.1 := by
              have := not_le.mp hB
              linarith
            have step := ihM
              (⟨curA.start, w.1 + wd, curA.confidences ++ [w.2]⟩ : RawSegment)
              (⟨w.1, w.1 + wd, [w.2]⟩ : RawSegment)
              (by intro x hx; simpa using by linarith [hw x hx])
              (by simpa using le_trans hss hsB)
              (by simp)
              (by simpa using by linarith)
              (by simpa using by linarith)
            obtain ⟨c, tl, heq, hcs, hce⟩ := mergeLoop_head wd gap rest
              (⟨curA.start, w.1 + wd, curA.confidences ++ [w.2]⟩ : RawSegment) hpair'
              (by intro x hx; simpa using by linarith [hw x hx])
            have hstarts : c.start = curA.start := by simpa using hcs
            have hce' : w.1 + wd ≤ c.endS := by simpa using hce
            have eL : smallF wd gap q (some curB) (w :: rest) =
                curB :: smallF wd gap q (some (⟨w.1, w.1 + wd, [w.2]⟩ : RawSegment)) rest := by
              simp [smallF, hq, hB]
            have eR : mergeLoop wd gap curA (w :: rest) = c :: tl := by
              simp only [mergeLoop, if_pos hABs]
              exact heq
            rw [eL, eR, keptDur_cons]
            rw [heq] at step
            simp only [adjDur] at step ⊢
            by_cases hkB : m ≤ segDur curB
            · have hkc : m ≤ segDur c := by
                simp only [segDur] at hkB ⊢
                rw [hstarts]
                linarith
              rw [if_pos hkB, if_pos hkc]
              rw [if_pos hkc] at step
              simp only [segDur] at *
              rw [hstarts] at step ⊢
              linarith
            · rw [if_neg hkB]
              by_cases hkc : m ≤ segDur c
              · rw [if_pos hkc]
                rw [if_pos hkc] at step
                simp only [segDur] at *
                rw [hstarts] at step ⊢
                linarith
              · rw [if_neg hkc]
                rw [if_neg hkc] at step
                try linarith
          · -- both runs close and reopen at w
            have step := ihM
              (⟨w.1, w.1 + wd, [w.2]⟩ : RawSegment)
              (⟨w.1, w.1 + wd, [w.2]⟩ : RawSegment)
              (by intro x hx; simpa using by linarith [hw x hx])
              (by simp)
              (by simp)
              (by simpa using by linarith)
              (by simpa using by linarith)
            have step' : keptDur m
                (smallF wd gap q (some (⟨w.1, w.1 + wd, [w.2]⟩ : RawSegment)) rest) ≤
                keptDur m (mergeLoop wd gap (⟨w.1, w.1 + wd, [w.2]⟩ : RawSegment) rest) := by
              calc keptDur m (smallF wd gap q (some (⟨w.1, w.1 + wd, [w.2]⟩ : RawSegment)) rest)
                  ≤ adjDur m ((⟨w.1, w.1 + wd, [w.2]⟩ : RawSegment).start -
                      (⟨w.1, w.1 + wd, [w.2]⟩ : RawSegment).start)
                      (mergeLoop wd gap (⟨w.1, w.1 + wd, [w.2]⟩ : RawSegment) rest) := step
                _ = keptDur m (mergeLoop wd gap (⟨w.1, w.1 + wd, [w.2]⟩ : RawSegment) rest) := by
                    rw [show ((⟨w.1, w.1 + wd, [w.2]⟩ : RawSegment).start -
                      (⟨w.1, w.1 + wd, [w.2]⟩ : RawSegment).start) = 0 by simp]
                    exact adjDur_zero m _
            have eL : smallF wd gap q (some curB) (w :: rest) =
                curB :: smallF wd gap q (some (⟨w.1, w.1 + wd, [w.2]⟩ : RawSegment)) rest := by
              simp [smallF, hq, hB]
            have eR : mergeLoop wd gap curA (w :: rest) =
                curA :: mergeLoop wd gap (⟨w.1, w.1 + wd, [w.2]⟩ : RawSegment) rest := by
              simp [mergeLoop, hABs]
            rw [eL, eR, keptDur_cons]
            simp only [adjDur]
            by_cases hkB : m ≤ segDur curB
            · have hkA : m ≤ segDur curA := by
                simp only [segDur] at hkB ⊢
                linarith
              rw [if_pos hkB, if_pos hkA]
              simp only [segDur] at *
              linarith
            · rw [if_neg hkB]
              by_cases hkA : m ≤ segDur curA
              · rw [if_pos hkA]
                simp only [segDur] at *
                linarith
              · rw [if_neg hkA]
                linarith
      · -- w is not selected by q
        by_cases hABs : w.1 ≤ curA.endS + gap
        · -- the full run absorbs w, the filtered run is unchanged
          have step := ihM
            (⟨curA.start, w.1 + wd, curA.confidences ++ [w.2]⟩ : RawSegment) curB
            (by intro x hx; simpa using by linarith [hw x hx])
            (by simpa using hss)
            (by simpa using by linarith)
            (by simpa using by linarith)
            hwfB
          have eL : smallF wd gap q (some curB) (w :: rest) =
              smallF wd gap q (some curB) rest := by
            simp [smallF, hq]
          have eR : mergeLoop wd gap curA (w :: rest) =
              mergeLoop wd gap
                (⟨curA.start, w.1 + wd, curA.confidences ++ [w.2]⟩ : RawSegment) rest := by
            simp [mergeLoop, hABs]
          rw [eL, eR]
          simpa using step
        · -- the full run closes curA; the filtered run still holds curB,
          -- which every later selected window now closes immediately
          have hAw : curA.endS + gap < w.1 := not_le.mp hABs
          have hlag : ∀ x ∈ rest, q x = true → curB.endS + gap < x.1 := by
            intro x hx _
            have := hw x hx
            linarith
          have eL : smallF wd gap q (some curB) (w :: rest) =
              curB :: smallF wd gap q none rest := by
            have e1 : smallF wd gap q (some curB) (w :: rest) =
                smallF wd gap q (some curB) rest := by
              simp [smallF, hq]
            rw [e1]
            exact smallF_lag wd gap q rest curB hlag
          have eR : mergeLoop wd gap curA (w :: rest) =
              curA :: mergeLoop wd gap (⟨w.1, w.1 + wd, [w.2]⟩ : RawSegment) rest := by
            simp [mergeLoop, hABs]
          have step := ihN (⟨w.1, w.1 + wd, [w.2]⟩ : RawSegment)
            (by intro x hx; simpa using by linarith [hw x hx])
            (by intro x hx; simpa using hw x hx)
            (by simpa using by linarith)
          rw [eL, eR, keptDur_cons]
          simp only [adjDur]
          by_cases hkB : m ≤ segDur curB
          · have hkA : m ≤ segDur curA := by
              simp only [segDur] at hkB ⊢
              linarith
            rw [if_pos hkB, if_pos hkA]
            simp only [segDur] at *
            linarith
          · rw [if_neg hkB]
            by_cases hkA : m ≤ segDur curA
            · rw [if_pos hkA]
              simp only [segDur] at *
              linarith
            · rw [if_neg hkA]
              linarith
    · intro curA hA hstart hwfA
      have hwA : curA.endS ≤ w.1 + wd := hA w (List.mem_cons_self _ _)
      have hwS : curA.start ≤ w.1 := hstart w (List.mem_cons_self _ _)
      by_cases hq : q w = true
      · by_cases hABs : w.1 ≤ curA.endS + gap
        · -- the full run absorbs w, the filtered run opens at w
          have step := ihM
            (⟨curA.start, w.1 + wd, curA.confidences ++ [w.2]⟩ : RawSegment)
            (⟨w.1, w.1 + wd, [w.2]⟩ : RawSegment)
            (by intro x hx; simpa using by linarith [hw x hx])
            (by simpa using hwS)
            (by simp)
            (by simpa using by linarith)
            (by simpa using by linarith)
          have eL : smallF wd gap q none (w :: rest) =
              smallF wd gap q (some (⟨w.1, w.1 + wd, [w.2]⟩ : RawSegment)) rest := by
            simp [smallF, hq]
          have eR : mergeLoop wd gap curA (w :: rest) =
              mergeLoop wd gap
                (⟨curA.start, w.1 + wd, curA.confidences ++ [w.2]⟩ : RawSegment) rest := by
            simp [mergeLoop, hABs]
          rw [eL, eR]
          refine le_trans (by simpa using step) (adjDur_le m _ ?_ _)
          simpa using by linarith
        · -- both runs open fresh at w
          have step := ihM
            (⟨w.1, w.1 + wd, [w.2]⟩ : RawSegment)
            (⟨w.1, w.1 + wd, [w.2]⟩ : RawSegment)
            (by intro x hx; simpa using by linarith [hw x hx])
            (by simp)
            (by simp)
            (by simpa using by linarith)
            (by simpa using by linarith)
          have step' : keptDur m
              (smallF wd gap q (some (⟨w.1, w.1 + wd, [w.2]⟩ : RawSegment)) rest) ≤
              keptDur m (mergeLoop wd gap (⟨w.1, w.1 + wd, [w.2]⟩ : RawSegment) rest) := by
            refine le_trans step ?_
            rw [show ((⟨w.1, w.1 + wd, [w.2]⟩ : RawSegment).start -
              (⟨w.1, w.1 + wd, [w.2]⟩ : RawSegment).start) = 0 by simp]
            exact le_of_eq (adjDur_zero m _)
          have eL : smallF wd gap q none (w :: rest) =
              smallF wd gap q (some (⟨w.1, w.1 + wd, [w.2]⟩ : RawSegment)) rest := by
            simp [smallF, hq]
          have eR : mergeLoop wd gap curA (w :: rest) =
              curA :: mergeLoop wd gap (⟨w.1, w.1 + wd, [w.2]⟩ : RawSegment) rest := by
            simp [mergeLoop, hABs]
          rw [eL, eR, keptDur_cons]
          by_cases hkA : m ≤ segDur curA
          · rw [if_pos hkA]
            have : (0:ℚ) ≤ segDur curA := by
              simp only [segDur]
              linarith
            linarith
          · rw [if_neg hkA]
            try linarith
      · by_cases hABs : w.1 ≤ curA.endS + gap
        · have eL : smallF wd gap q none (w :: rest) = smallF wd gap q none rest := by
            simp [smallF, hq]
          have eR : mergeLoop wd gap curA (w :: rest) =
              mergeLoop wd gap
                (⟨curA.start, w.1 + wd, curA.confidences ++ [w.2]⟩ : RawSegment) rest := by
            simp [mergeLoop, hABs]
          rw [eL, eR]
          refine ihN (⟨curA.start, w.1 + wd, curA.confidences ++ [w.2]⟩ : RawSegment)
            (by intro x hx; simpa using by linarith [hw x hx])
            (by intro x hx; simpa using hstart x (List.mem_cons_of_mem _ hx))
            (by simpa using by linarith)
        · have eL : smallF wd gap q none (w :: rest) = smallF wd gap q none rest := by
            simp [smallF, hq]
          have eR : mergeLoop wd gap curA (w :: rest) =
              curA :: mergeLoop wd gap (⟨w.1, w.1 + wd, [w.2]⟩ : RawSegment) rest := by
            simp [mergeLoop, hABs]
          have step := ihN (⟨w.1, w.1 + wd, [w.2]⟩ : RawSegment)
            (by intro x hx; simpa using by linarith [hw x hx])
            (by intro x hx; simpa using hw x hx)
            (by simpa using by linarith)
          rw [eL, eR, keptDur_cons]
          by_cases hkA : m ≤ segDur curA
          · rw [if_pos hkA]
            have : (0:ℚ) ≤ segDur curA := by
              simp only [segDur]
              linarith
            linarith
          · rw [if_neg hkA]
            try linarith

lemma keptDur_postprocess (predictions : List (ℚ × ℚ)) (config : ModelConfig) :
    totalDuration (postprocessPredictions predictions config) =
      keptDur ((config.min_segment_duration_ms : ℚ) / 1000)
        (mergeSegments ((config.window_size_ms : ℚ) / 1000)
          ((config.merge_gap_ms : ℚ) / 1000)
          (predictions.filter (fun w => decide (config.confidence_threshold ≤ w.2)))) := by
  rw [postprocess_eq, emitSegments_eq_filter_map]
  simp only [totalDuration, keptDur, List.map_map]
  rfl

lemma filter_threshold_subsume (t1 t2 : ℚ) (h : t1 ≤ t2) :
    ∀ l : List (ℚ × ℚ),
      l.filter (fun w => decide (t2 ≤ w.2)) =
        (l.filter (fun w => decide (t1 ≤ w.2))).filter (fun w => decide (t2 ≤ w.2)) := by
  intro l
  induction l with
  | nil => rfl
  | cons w rest ih =>
    by_cases h2 : t2 ≤ w.2
    · have h1 : t1 ≤ w.2 := le_trans h h2
      simp [List.filter_cons, h1, h2, ih]
    · by_cases h1 : t1 ≤ w.2 <;> simp [List.filter_cons, h1, h2, ih]

/-- C6 counterexample: raising the confidence threshold can increase the
number of emitted segments.  With windows at 0s, 1s, 2s carrying
probabilities 0.9, 0.7, 0.9 and otherwise default configuration, the
threshold 0.7 yields one merged segment, while the larger threshold 0.8
removes the bridging middle window and yields two segments. -/
theorem C6_count_counterexample :
    (7:ℚ)/10 ≤ 4/5 ∧
    (postprocessPredictions [(0, 9/10), (1, 7/10), (2, 9/10)] {}).length = 1 ∧
    (postprocessPredictions [(0, 9/10), (1, 7/10), (2, 9/10)]
      { confidence_threshold := 4/5 }).length = 2 := by
  refine ⟨by norm_num, ?_, ?_⟩
  · rw [postprocess_eq]
    norm_num [List.filter_cons, mergeSegments, mergeLoop, emitSegments,
      RawSegment.emit, listMean, segDur]
  · rw [postprocess_eq]
    norm_num [List.filter_cons, mergeSegments, mergeLoop, emitSegments,
      RawSegment.emit, listMean, segDur]

/-- C6 amended: for predictions sorted by start time and nonnegative
window duration and merge gap, increasing the confidence threshold never
increases the total duration (sum of end minus start) of the emitted
segments.  The count of segments can increase, as the counterexample
shows, but the kept duration is monotone. -/
theorem C6_duration_monotone (predictions : List (ℚ × ℚ)) (config : ModelConfig)
    (t1 t2 : ℚ)
    (hpair : predictions.Pairwise (fun a b => a.1 ≤ b.1))
    (ht : t1 ≤ t2)
    (hwd : 0 ≤ config.window_size_ms)
    (hgap : 0 ≤ config.merge_gap_ms) :
    totalDuration
        (postprocessPredictions predictions { config with confidence_threshold := t2 }) ≤
      totalDuration
        (postprocessPredictions predictions { config with confidence_threshold := t1 }) := by
  have hwdQ : (0:ℚ) ≤ (config.window_size_ms : ℚ) / 1000 := by
    have : (0:ℚ) ≤ (config.window_size_ms : ℚ) := by exact_mod_cast hwd
    linarith
  have hgapQ : (0:ℚ) ≤ (config.merge_gap_ms : ℚ) / 1000 := by
    have : (0:ℚ) ≤ (config.merge_gap_ms : ℚ) := by exact_mod_cast hgap
    linarith
  rw [keptDur_postprocess, keptDur_postprocess]
  simp only
  rw [filter_threshold_subsume t1 t2 ht predictions]
  have hpairP : (predictions.filter (fun w => decide (t1 ≤ w.2))).Pairwise
      (fun a b => a.1 ≤ b.1) := hpair.filter _
  rw [← smallF_none ((config.window_size_ms : ℚ) / 1000) ((config.merge_gap_ms : ℚ) / 1000)
    (fun w => decide (t2 ≤ w.2))]
  generalize hP : predictions.filter (fun w => decide (t1 ≤ w.2)) = P at hpairP
  cases P with
  | nil => simp [smallF, mergeSegments, keptDur]
  | cons w rest =>
    rw [List.pairwise_cons] at hpairP
    obtain ⟨hwhead, hpair'⟩ := hpairP
    have hmono := mergeMono ((config.window_size_ms : ℚ) / 1000)
      ((config.merge_gap_ms : ℚ) / 1000) ((config.min_segment_duration_ms : ℚ) / 1000)
      (fun w => decide (t2 ≤ w.2)) hwdQ hgapQ rest hpair'
    by_cases hqw : (fun (w : ℚ × ℚ) => decide (t2 ≤ w.2)) w = true
    · have eL : smallF ((config.window_size_ms : ℚ) / 1000)
          ((config.merge_gap_ms : ℚ) / 1000) (fun w => decide (t2 ≤ w.2)) none (w :: rest) =
          smallF ((config.window_size_ms : ℚ) / 1000) ((config.merge_gap_ms : ℚ) / 1000)
            (fun w => decide (t2 ≤ w.2))
            (some (⟨w.1, w.1 + (config.window_size_ms : ℚ) / 1000, [w.2]⟩ : RawSegment))
            rest := by
        simp [smallF, hqw]
      rw [eL]
      have step := hmono.1
        (⟨w.1, w.1 + (config.window_size_ms : ℚ) / 1000, [w.2]⟩ : RawSegment)
        (⟨w.1, w.1 + (config.window_size_ms : ℚ) / 1000, [w.2]⟩ : RawSegment)
        (by intro x hx; simpa using by linarith [hwhead x hx])
        (by simp)
        (by simp)
        (by simpa using by linarith)
        (by simpa using by linarith)
      refine le_trans step ?_
      rw [show ((⟨w.1, w.1 + (config.window_size_ms : ℚ) / 1000, [w.2]⟩ : RawSegment).start -
        (⟨w.1, w.1 + (config.window_size_ms : ℚ) / 1000, [w.2]⟩ : RawSegment).start) = 0 by simp]
      rw [adjDur_zero]
      simp [mergeSegments]
    · have eL : smallF ((config.window_size_ms : ℚ) / 1000)
          ((config.merge_gap_ms : ℚ) / 1000) (fun w => decide (t2 ≤ w.2)) none (w :: rest) =
          smallF ((config.window_size_ms : ℚ) / 1000) ((config.merge_gap_ms : ℚ) / 1000)
            (fun w => decide (t2 ≤ w.2)) none rest := by
        simp only [smallF, if_neg hqw]
      rw [eL]
      have step := hmono.2
        (⟨w.1, w.1 + (config.window_size_ms : ℚ) / 1000, [w.2]⟩ : RawSegment)
        (by intro x hx; simpa using by linarith [hwhead x hx])
        (by intro x hx; simpa using hwhead x hx)
        (by simpa using by linarith)
      refine le_trans step ?_
      simp [mergeSegments]

/-- C6 witness: the duration monotonicity applied at a concrete sorted
input, raising the default threshold 0.7 to 0.8. -/
theorem C6_duration_monotone_witness :
    (([((0:ℚ), (1:ℚ)), ((2:ℚ), (3:ℚ)/4)] : List (ℚ × ℚ)).Pairwise (fun a b => a.1 ≤ b.1) ∧
      (7:ℚ)/10 ≤ 4/5 ∧
      (0:ℤ) ≤ ({} : ModelConfig).window_size_ms ∧
      (0:ℤ) ≤ ({} : ModelConfig).merge_gap_ms) ∧
    totalDuration (postprocessPredictions [((0:ℚ), (1:ℚ)), ((2:ℚ), (3:ℚ)/4)]
        { ({} : ModelConfig) with confidence_threshold := 4/5 }) ≤
      totalDuration (postprocessPredictions [((0:ℚ), (1:ℚ)), ((2:ℚ), (3:ℚ)/4)]
        { ({} : ModelConfig) with confidence_threshold := 7/10 }) := by
  have hpair : ([((0:ℚ), (1:ℚ)), ((2:ℚ), (3:ℚ)/4)] : List (ℚ × ℚ)).Pairwise
      (fun a b => a.1 ≤ b.1) := by
    refine List.Pairwise.cons ?_ (List.pairwise_singleton _ _)
    intro b hb
    simp only [List.mem_singleton] at hb
    subst hb
    norm_num
  refine ⟨⟨hpair, by norm_num, by norm_num, by norm_num⟩, ?_⟩
  exact C6_duration_monotone [((0:ℚ), (1:ℚ)), ((2:ℚ), (3:ℚ)/4)] {} (7/10) (4/5)
    hpair (by norm_num) (by norm_num) (by norm_num)

end Atlas
